import Mathlib

/-!
Formal model of the nala-coder repository (a Go coding agent), shallowly
embedding the data model and the algorithms of its context manager, tool
engine, agent loop, LLM stream reconstruction and built-in tools, together
with theorems settling the specification's claims about them.

Conventions:
* Go strings that are traversed rune-by-rune are modelled as Lean `String`
  (a list of Unicode scalar values); Go byte-level operations are modelled
  over `List Nat` (byte values).
* Go machine integers are modelled as `Int` or `Nat`; Go `int(x)` conversion
  of a non-negative float is truncation, modelled over `ℚ` by `goIntTrunc`.
* Fallible Go functions returning `(T, error)` are modelled as `Except String T`.
* Wall-clock fields (`Timestamp`, fetch duration) are omitted: they carry no
  information the claims are about.
-/

namespace NalaCoder

/-! ## Core data types (pkg/types/types.go) -/

/-- Model of `types.ToolCallFunction`. -/
structure ToolCallFunction where
  name : String
  arguments : String
deriving DecidableEq, Repr

/-- Model of `types.ToolCall` (the `Result` and `Metadata` fields, which stay
`nil` in all the code paths studied here, are omitted). -/
structure ToolCall where
  id : String
  type : String
  function : ToolCallFunction
deriving DecidableEq, Repr

/-- Model of `types.ToolCallResult` (the `Timestamp` field, which is wall-clock
time, is omitted). -/
structure ToolCallResult where
  content : String
  success : Bool
  error : String
deriving DecidableEq, Repr

/-- Model of `types.Message`, reduced to the fields the context manager and the
agent loop actually read (`Role`, `Content`). -/
structure Message where
  role : String
  content : String
deriving DecidableEq, Repr

instance : Inhabited Message := ⟨⟨"", ""⟩⟩

/-- Model of `types.Usage`. -/
structure Usage where
  promptTokens : Int
  completionTokens : Int
  totalTokens : Int
deriving DecidableEq, Repr

/-! ## Token estimation (pkg/utils, `CountTokens`) -/

/-- Go `int(x)` conversion of a float: truncation toward zero, modelled on `ℚ`. -/
def goIntTrunc (q : ℚ) : ℤ :=
  if 0 ≤ q then ⌊q⌋ else ⌈q⌉

/-- The rune test `r >= 0x4e00 && r <= 0x9fff` from `utils.CountTokens`. -/
def isCJKRune (c : Char) : Bool :=
  decide (0x4e00 ≤ c.toNat) && decide (c.toNat ≤ 0x9fff)

/-- Model of `utils.CountTokens`:
`chars = len([]rune(text))`, `chineseCount` counts runes in `[0x4e00, 0x9fff]`,
`englishCount = chars - chineseCount`, and the result is
`int(float64(englishCount)/4 + float64(chineseCount)/1.5)`. -/
def CountTokens (text : String) : ℤ :=
  let chars : ℕ := text.data.length
  let chineseCount : ℕ := (text.data.filter isCJKRune).length
  let englishCount : ℕ := chars - chineseCount
  goIntTrunc ((englishCount : ℚ) / 4 + (chineseCount : ℚ) / 1.5)

theorem goIntTrunc_of_nonneg {q : ℚ} (h : 0 ≤ q) : goIntTrunc q = ⌊q⌋ := by
  simp [goIntTrunc, h]

theorem countTokens_eq_floor (text : String) :
    CountTokens text =
      ⌊((text.data.length - (text.data.filter isCJKRune).length : ℕ) : ℚ) / 4 +
        (((text.data.filter isCJKRune).length : ℕ) : ℚ) / 1.5⌋ := by
  unfold CountTokens
  refine goIntTrunc_of_nonneg ?_
  have h1 : (0:ℚ) ≤ ((text.data.length - (text.data.filter isCJKRune).length : ℕ) : ℚ) / 4 := by
    positivity
  have h2 : (0:ℚ) ≤ (((text.data.filter isCJKRune).length : ℕ) : ℚ) / 1.5 := by
    positivity
  linarith

theorem filter_length_le_data (l : List Char) :
    (l.filter isCJKRune).length ≤ l.length :=
  List.length_filter_le _ _

/-- C9: the token-estimating function is monotonic under concatenation: for all
strings `a` and `b`, `CountTokens (a ++ b) ≥ CountTokens a`, where `CountTokens`
charges 1/4 token per non-CJK rune and 1/1.5 token per CJK rune and truncates
the summed estimate to an integer. -/
theorem counttokens_monotone_append (a b : String) :
    CountTokens a ≤ CountTokens (a ++ b) := by
  have hdata : (a ++ b).data = a.data ++ b.data := rfl
  rw [countTokens_eq_floor, countTokens_eq_floor]
  apply Int.floor_le_floor
  rw [hdata, List.filter_append, List.length_append, List.length_append]
  set na := a.data.length with hna
  set ca := (a.data.filter isCJKRune).length with hca
  set nb := b.data.length with hnb
  set cb := (b.data.filter isCJKRune).length with hcb
  have hca_le : ca ≤ na := filter_length_le_data a.data
  have hcb_le : cb ≤ nb := filter_length_le_data b.data
  have hsub : na + nb - (ca + cb) = (na - ca) + (nb - cb) := by omega
  rw [hsub]
  have heb : (0:ℚ) ≤ ((nb - cb : ℕ) : ℚ) := Nat.cast_nonneg _
  have hcb0 : (0:ℚ) ≤ ((cb : ℕ) : ℚ) := Nat.cast_nonneg _
  push_cast
  gcongr
  · linarith
  · linarith

/-! ## Tool engine (src/unnamed/part_007, `tools.Engine`)

The engine holds a registry `tools : map[string]ToolExecutor`.  `ExecuteTools`
first classifies the batch: unknown tools get a failed result at their index,
known tools are split into a concurrency-safe group and a sequential group.
The concurrent group runs under a semaphore whose acquisition races the
context's cancellation (modelled by `proceed : Nat → Bool`, which is constantly
`true` while the context is alive); the sequential group checks cancellation
before each call and, on the first cancelled check, writes one
`context cancelled` result and returns (modelled by `cancelStep`, the number of
sequential iterations completed before cancellation is observed; any
`cancelStep ≥` the group size models a context that is never cancelled). -/

/-- Model of `types.ToolExecutor`: the executed effect is abstracted into a
pure result function. -/
structure ToolExecutor where
  execute : ToolCall → ToolCallResult
  isConcurrencySafe : Bool

/-- The engine's `tools` map. -/
def Registry : Type := String → Option ToolExecutor

instance : Inhabited ToolCall := ⟨⟨"", "", ⟨"", ""⟩⟩⟩

/-- Result written for a call naming an unregistered tool:
`fmt.Sprintf("tool %s not found", name)`. -/
def notFoundResult (name : String) : ToolCallResult :=
  { content := "", success := false, error := "tool " ++ name ++ " not found" }

/-- The Go zero value of `types.ToolCallResult`, as laid down by
`make([]types.ToolCallResult, len(calls))`. -/
def zeroResult : ToolCallResult :=
  { content := "", success := false, error := "" }

/-- Result written when the context is cancelled. -/
def cancelledResult : ToolCallResult :=
  { content := "", success := false, error := "context cancelled" }

/-- Model of `Engine.executeSingleTool` (the per-tool timeout only derives a
child context and is absorbed into `execute`). -/
def executeSingleTool (reg : Registry) (call : ToolCall) : ToolCallResult :=
  match reg call.function.name with
  | none => notFoundResult call.function.name
  | some tool => tool.execute call

/-- The classification pass of `ExecuteTools` as it acts on the `results`
array: unknown tools get `notFoundResult`, the rest keep the zero value. -/
def initResults (reg : Registry) (calls : List ToolCall) : List ToolCallResult :=
  calls.map (fun call =>
    match reg call.function.name with
    | none => notFoundResult call.function.name
    | some _ => zeroResult)

/-- Whether index `i` lands in the concurrent group
(`tool.IsConcurrencySafe()`). -/
def isConcurrentIndex (reg : Registry) (calls : List ToolCall) (i : Nat) : Bool :=
  match calls[i]? with
  | some call =>
    match reg call.function.name with
    | some tool => tool.isConcurrencySafe
    | none => false
  | none => false

/-- Whether index `i` lands in the sequential group. -/
def isSequentialIndex (reg : Registry) (calls : List ToolCall) (i : Nat) : Bool :=
  match calls[i]? with
  | some call =>
    match reg call.function.name with
    | some tool => !tool.isConcurrencySafe
    | none => false
  | none => false

/-- The `concurrentCalls` index list built by the classification loop. -/
def concurrentIndices (reg : Registry) (calls : List ToolCall) : List Nat :=
  (List.range calls.length).filter (isConcurrentIndex reg calls)

/-- The `sequentialCalls` index list built by the classification loop. -/
def sequentialIndices (reg : Registry) (calls : List ToolCall) : List Nat :=
  (List.range calls.length).filter (isSequentialIndex reg calls)

/-- Model of `Engine.executeConcurrentTools`: every goroutine either acquires
the semaphore and runs its tool (`proceed i = true`) or observes cancellation
while waiting and records `cancelledResult`. -/
def applyConcurrent (reg : Registry) (calls : List ToolCall) (proceed : Nat → Bool)
    (idxs : List Nat) (results : List ToolCallResult) : List ToolCallResult :=
  idxs.foldl (fun rs i =>
    rs.set i (if proceed i then executeSingleTool reg (calls.getD i default)
              else cancelledResult)) results

/-- Model of `Engine.executeSequentialTools`: iterate the group in order; after
`cancelStep` completed iterations the `ctx.Done()` branch fires, which writes
`cancelledResult` at the current index and returns, leaving the remaining
entries of `results` untouched. -/
def applySequential (reg : Registry) (calls : List ToolCall) :
    List Nat → Nat → List ToolCallResult → List ToolCallResult
  | [], _, results => results
  | i :: _, 0, results => results.set i cancelledResult
  | i :: rest, k + 1, results =>
      applySequential reg calls rest k
        (results.set i (executeSingleTool reg (calls.getD i default)))

/-- Model of `Engine.ExecuteTools`. -/
def ExecuteTools (reg : Registry) (calls : List ToolCall) (proceed : Nat → Bool)
    (cancelStep : Nat) : List ToolCallResult :=
  if calls.isEmpty then []
  else
    applySequential reg calls (sequentialIndices reg calls) cancelStep
      (applyConcurrent reg calls proceed (concurrentIndices reg calls)
        (initResults reg calls))

theorem applyConcurrent_nil (reg : Registry) (calls : List ToolCall)
    (proceed : Nat → Bool) (results : List ToolCallResult) :
    applyConcurrent reg calls proceed [] results = results := rfl

theorem applyConcurrent_cons (reg : Registry) (calls : List ToolCall)
    (proceed : Nat → Bool) (i : Nat) (rest : List Nat)
    (results : List ToolCallResult) :
    applyConcurrent reg calls proceed (i :: rest) results =
      applyConcurrent reg calls proceed rest
        (results.set i (if proceed i then executeSingleTool reg (calls.getD i default)
                        else cancelledResult)) := rfl

theorem applyConcurrent_length (reg : Registry) (calls : List ToolCall)
    (proceed : Nat → Bool) (idxs : List Nat) (results : List ToolCallResult) :
    (applyConcurrent reg calls proceed idxs results).length = results.length := by
  induction idxs generalizing results with
  | nil => rfl
  | cons i rest ih =>
      rw [applyConcurrent_cons, ih, List.length_set]

theorem applySequential_length (reg : Registry) (calls : List ToolCall)
    (idxs : List Nat) (k : Nat) (results : List ToolCallResult) :
    (applySequential reg calls idxs k results).length = results.length := by
  induction idxs generalizing k results with
  | nil => rfl
  | cons i rest ih =>
      cases k with
      | zero => exact List.length_set ..
      | succ k =>
          show (applySequential reg calls rest k _).length = _
          rw [ih, List.length_set]

theorem applyConcurrent_getElem_not_mem (reg : Registry) (calls : List ToolCall)
    (proceed : Nat → Bool) (idxs : List Nat) (results : List ToolCallResult)
    {j : Nat} (hj : j ∉ idxs) :
    (applyConcurrent reg calls proceed idxs results)[j]? = results[j]? := by
  induction idxs generalizing results with
  | nil => rfl
  | cons i rest ih =>
      have hij : i ≠ j := fun h => hj (h ▸ List.mem_cons_self i rest)
      have hjr : j ∉ rest := fun h => hj (List.mem_cons_of_mem _ h)
      rw [applyConcurrent_cons, ih _ hjr, List.getElem?_set_ne hij]

theorem applySequential_getElem_not_mem (reg : Registry) (calls : List ToolCall)
    (idxs : List Nat) (k : Nat) (results : List ToolCallResult)
    {j : Nat} (hj : j ∉ idxs) :
    (applySequential reg calls idxs k results)[j]? = results[j]? := by
  induction idxs generalizing k results with
  | nil => rfl
  | cons i rest ih =>
      have hij : i ≠ j := fun h => hj (h ▸ List.mem_cons_self i rest)
      have hjr : j ∉ rest := fun h => hj (List.mem_cons_of_mem _ h)
      cases k with
      | zero => exact List.getElem?_set_ne hij
      | succ k =>
          show (applySequential reg calls rest k _)[j]? = _
          rw [ih _ _ hjr, List.getElem?_set_ne hij]

theorem applyConcurrent_getElem_mem (reg : Registry) (calls : List ToolCall)
    (proceed : Nat → Bool) (idxs : List Nat) (results : List ToolCallResult)
    {j : Nat} (hj : j ∈ idxs) (hlen : j < results.length)
    (hp : ∀ i, proceed i = true) :
    (applyConcurrent reg calls proceed idxs results)[j]? =
      some (executeSingleTool reg (calls.getD j default)) := by
  induction idxs generalizing results with
  | nil => cases hj
  | cons i rest ih =>
      rw [applyConcurrent_cons]
      by_cases hjr : j ∈ rest
      · exact ih _ hjr (by rw [List.length_set]; exact hlen)
      · have hij : i = j := by
          rcases List.mem_cons.mp hj with h | h
          · exact h.symm
          · exact absurd h hjr
        rw [applyConcurrent_getElem_not_mem reg calls proceed rest _ hjr, hij, hp j]
        simp only [if_pos rfl]
        exact List.getElem?_set_eq_of_lt _ hlen

theorem applySequential_getElem_all (reg : Registry) (calls : List ToolCall)
    (idxs : List Nat) (k : Nat) (results : List ToolCallResult)
    {j : Nat} (hj : j ∈ idxs) (hlen : j < results.length)
    (hk : idxs.length ≤ k) :
    (applySequential reg calls idxs k results)[j]? =
      some (executeSingleTool reg (calls.getD j default)) := by
  induction idxs generalizing k results with
  | nil => cases hj
  | cons i rest ih =>
      cases k with
      | zero => simp at hk
      | succ k =>
          show (applySequential reg calls rest k _)[j]? = _
          by_cases hjr : j ∈ rest
          · exact ih _ _ hjr (by rw [List.length_set]; exact hlen)
              (Nat.le_of_succ_le_succ (by simpa using hk))
          · have hij : i = j := by
              rcases List.mem_cons.mp hj with h | h
              · exact h.symm
              · exact absurd h hjr
            rw [applySequential_getElem_not_mem reg calls rest k _ hjr, hij]
            exact List.getElem?_set_eq_of_lt _ hlen

theorem executeTools_length (reg : Registry) (calls : List ToolCall)
    (proceed : Nat → Bool) (cancelStep : Nat) :
    (ExecuteTools reg calls proceed cancelStep).length = calls.length := by
  unfold ExecuteTools
  by_cases h : calls.isEmpty
  · rw [if_pos h]
    simp [List.isEmpty_iff.mp h]
  · rw [if_neg h, applySequential_length, applyConcurrent_length]
    simp [initResults]

theorem initResults_getElem (reg : Registry) (calls : List ToolCall)
    {i : Nat} {call : ToolCall} (hi : calls[i]? = some call) :
    (initResults reg calls)[i]? =
      some (match reg call.function.name with
            | none => notFoundResult call.function.name
            | some _ => zeroResult) := by
  simp [initResults, List.getElem?_map, hi]

theorem initResults_length (reg : Registry) (calls : List ToolCall) :
    (initResults reg calls).length = calls.length := by
  simp [initResults]

theorem mem_concurrentIndices (reg : Registry) (calls : List ToolCall) {i : Nat} :
    i ∈ concurrentIndices reg calls ↔
      i < calls.length ∧ isConcurrentIndex reg calls i = true := by
  simp [concurrentIndices, List.mem_filter, List.mem_range]

theorem mem_sequentialIndices (reg : Registry) (calls : List ToolCall) {i : Nat} :
    i ∈ sequentialIndices reg calls ↔
      i < calls.length ∧ isSequentialIndex reg calls i = true := by
  simp [sequentialIndices, List.mem_filter, List.mem_range]

theorem sequentialIndices_nodup (reg : Registry) (calls : List ToolCall) :
    (sequentialIndices reg calls).Nodup :=
  (List.nodup_range _).filter _

theorem not_concurrent_of_sequential (reg : Registry) (calls : List ToolCall)
    {i : Nat} (h : isSequentialIndex reg calls i = true) :
    isConcurrentIndex reg calls i = false := by
  rcases hc : calls[i]? with _ | call
  · simp [isSequentialIndex, hc] at h
  · rcases hr : reg call.function.name with _ | tool
    · simp [isSequentialIndex, hc, hr] at h
    · simp [isSequentialIndex, hc, hr] at h
      simp [isConcurrentIndex, hc, hr, h]

theorem isSequentialIndex_spec (reg : Registry) (calls : List ToolCall) {i : Nat}
    (h : isSequentialIndex reg calls i = true) :
    ∃ call tool, calls[i]? = some call ∧ reg call.function.name = some tool ∧
      tool.isConcurrencySafe = false := by
  rcases hc : calls[i]? with _ | call
  · simp [isSequentialIndex, hc] at h
  · rcases hr : reg call.function.name with _ | tool
    · simp [isSequentialIndex, hc, hr] at h
    · simp [isSequentialIndex, hc, hr] at h
      exact ⟨call, tool, rfl, hr, h⟩

theorem calls_not_empty_of_getElem {calls : List ToolCall} {i : Nat}
    {call : ToolCall} (hi : calls[i]? = some call) : calls.isEmpty = false := by
  cases calls with
  | nil => simp at hi
  | cons c cs => rfl

theorem getD_eq_of_getElem {calls : List ToolCall} {i : Nat} {call : ToolCall}
    (hi : calls[i]? = some call) : calls.getD i default = call := by
  simp [List.getD, hi]

/-- C1: for every batch `calls` of tool calls, `ExecuteTools` returns a result
list of the same length; every call naming a tool absent from the registry
carries, at its original index, a failed result whose error is
`tool <name> not found`; and (when the context is never cancelled, so every
concurrent goroutine proceeds and the sequential loop runs to the end) every
call naming a registered tool carries, at its original index, the result of
executing exactly that call. -/
theorem claim_C1_executetools_index_correspondence (reg : Registry)
    (calls : List ToolCall) (proceed : Nat → Bool) (cancelStep : Nat) :
    (ExecuteTools reg calls proceed cancelStep).length = calls.length ∧
    (∀ (i : Nat) (call : ToolCall), calls[i]? = some call → reg call.function.name = none →
      (ExecuteTools reg calls proceed cancelStep)[i]? =
        some (notFoundResult call.function.name)) ∧
    ((∀ i, proceed i = true) → (sequentialIndices reg calls).length ≤ cancelStep →
      ∀ (i : Nat) (call : ToolCall), calls[i]? = some call → reg call.function.name ≠ none →
        (ExecuteTools reg calls proceed cancelStep)[i]? =
          some (executeSingleTool reg call)) := by
  refine ⟨executeTools_length reg calls proceed cancelStep, ?_, ?_⟩
  · intro i call hi hnone
    have hne := calls_not_empty_of_getElem hi
    unfold ExecuteTools
    rw [hne]
    simp only [Bool.false_eq_true, if_false]
    have hcon : isConcurrentIndex reg calls i = false := by
      simp [isConcurrentIndex, hi, hnone]
    have hseq : isSequentialIndex reg calls i = false := by
      simp [isSequentialIndex, hi, hnone]
    have hmem1 : i ∉ concurrentIndices reg calls := by
      intro h
      rw [mem_concurrentIndices] at h
      rw [hcon] at h
      exact absurd h.2 (by simp)
    have hmem2 : i ∉ sequentialIndices reg calls := by
      intro h
      rw [mem_sequentialIndices] at h
      rw [hseq] at h
      exact absurd h.2 (by simp)
    rw [applySequential_getElem_not_mem reg calls _ _ _ hmem2,
      applyConcurrent_getElem_not_mem reg calls proceed _ _ hmem1,
      initResults_getElem reg calls hi, hnone]
  · intro hp hk i call hi hsome
    have hne := calls_not_empty_of_getElem hi
    have hlt : i < calls.length := by
      rcases List.getElem?_eq_some_iff.mp hi with ⟨h, _⟩
      exact h
    unfold ExecuteTools
    rw [hne]
    simp only [Bool.false_eq_true, if_false]
    rcases htool : reg call.function.name with _ | tool
    · exact absurd htool hsome
    by_cases hsafe : tool.isConcurrencySafe
    · have hcon : isConcurrentIndex reg calls i = true := by
        simp [isConcurrentIndex, hi, htool, hsafe]
      have hseq : isSequentialIndex reg calls i = false := by
        simp [isSequentialIndex, hi, htool, hsafe]
      have hmem2 : i ∉ sequentialIndices reg calls := by
        intro h
        rw [mem_sequentialIndices] at h
        rw [hseq] at h
        exact absurd h.2 (by simp)
      rw [applySequential_getElem_not_mem reg calls _ _ _ hmem2,
        applyConcurrent_getElem_mem reg calls proceed _ _
          ((mem_concurrentIndices reg calls).mpr ⟨hlt, hcon⟩)
          (by rw [initResults_length]; exact hlt) hp,
        getD_eq_of_getElem hi]
    · have hseq : isSequentialIndex reg calls i = true := by
        simp [isSequentialIndex, hi, htool, hsafe]
      rw [applySequential_getElem_all reg calls _ _ _
          ((mem_sequentialIndices reg calls).mpr ⟨hlt, hseq⟩)
          (by rw [applyConcurrent_length, initResults_length]; exact hlt) hk,
        getD_eq_of_getElem hi]

/-- Concurrency-safe demonstration tool used to instantiate the engine
theorems on concrete inputs. -/
def echoTool : ToolExecutor :=
  { execute := fun call =>
      { content := call.function.arguments, success := true, error := "" },
    isConcurrencySafe := true }

/-- Non-concurrency-safe demonstration tool. -/
def demoSeqTool : ToolExecutor :=
  { execute := fun _ => { content := "done", success := true, error := "" },
    isConcurrencySafe := false }

/-- Demonstration registry holding one concurrency-safe and one sequential
tool. -/
def demoRegistry : Registry := fun name =>
  if name = "echo" then some echoTool
  else if name = "seqtool" then some demoSeqTool
  else none

/-- Batch used by the C1 witness: one registered call, one unknown tool. -/
def demoBatchC1 : List ToolCall :=
  [⟨"1", "function", ⟨"echo", "hi"⟩⟩, ⟨"2", "function", ⟨"ghost", ""⟩⟩]

/-- Witness instantiating C1 on a concrete batch: two calls in, two results
out, the unknown tool `ghost` failed at index 1 with the `not found` error,
and the registered call executed at index 0. -/
theorem claim_C1_witness :
    (ExecuteTools demoRegistry demoBatchC1 (fun _ => true) 0).length = 2 ∧
    (ExecuteTools demoRegistry demoBatchC1 (fun _ => true) 0)[1]? =
      some (notFoundResult "ghost") ∧
    (ExecuteTools demoRegistry demoBatchC1 (fun _ => true) 0)[0]? =
      some (executeSingleTool demoRegistry ⟨"1", "function", ⟨"echo", "hi"⟩⟩) := by
  obtain ⟨h1, h2, h3⟩ :=
    claim_C1_executetools_index_correspondence demoRegistry demoBatchC1
      (fun _ => true) 0
  refine ⟨h1, h2 1 ⟨"2", "function", ⟨"ghost", ""⟩⟩ rfl rfl, ?_⟩
  refine h3 (fun _ => rfl) (by decide) 0 ⟨"1", "function", ⟨"echo", "hi"⟩⟩ rfl ?_
  intro h
  exact Option.noConfusion (show some echoTool = none from h)

/-- C3 (amended): when the context is already cancelled as the sequential
group is processed, the FIRST remaining sequential call receives a failed
result with error `context cancelled` and the loop returns; every later
sequential call keeps the zero-value result (success `false`, EMPTY error),
not a `context cancelled` result. -/
theorem claim_C3_sequential_cancellation (reg : Registry) (calls : List ToolCall)
    (proceed : Nat → Bool) (i0 : Nat) (rest : List Nat)
    (hseq : sequentialIndices reg calls = i0 :: rest) :
    (ExecuteTools reg calls proceed 0)[i0]? = some cancelledResult ∧
    ∀ j ∈ rest, (ExecuteTools reg calls proceed 0)[j]? = some zeroResult := by
  have hmem0 : i0 ∈ sequentialIndices reg calls := by
    rw [hseq]; exact List.mem_cons_self _ _
  obtain ⟨hlt0, _⟩ := (mem_sequentialIndices reg calls).mp hmem0
  have hne : calls.isEmpty = false := by
    cases calls with
    | nil => simp at hlt0
    | cons c cs => rfl
  have hnodup := sequentialIndices_nodup reg calls
  rw [hseq] at hnodup
  have hi0rest : i0 ∉ rest := (List.nodup_cons.mp hnodup).1
  unfold ExecuteTools
  rw [hne]
  simp only [Bool.false_eq_true, if_false]
  rw [hseq]
  constructor
  · show ((applyConcurrent reg calls proceed (concurrentIndices reg calls)
        (initResults reg calls)).set i0 cancelledResult)[i0]? = some cancelledResult
    refine List.getElem?_set_eq_of_lt _ ?_
    rw [applyConcurrent_length, initResults_length]
    exact hlt0
  · intro j hj
    have hjne : i0 ≠ j := fun h => hi0rest (h ▸ hj)
    have hjmem : j ∈ sequentialIndices reg calls := by
      rw [hseq]; exact List.mem_cons_of_mem _ hj
    obtain ⟨hjlt, hjseq⟩ := (mem_sequentialIndices reg calls).mp hjmem
    obtain ⟨call, tool, hcall, htool, _⟩ := isSequentialIndex_spec reg calls hjseq
    have hjcon : j ∉ concurrentIndices reg calls := by
      intro h
      obtain ⟨_, hc⟩ := (mem_concurrentIndices reg calls).mp h
      rw [not_concurrent_of_sequential reg calls hjseq] at hc
      cases hc
    show ((applyConcurrent reg calls proceed (concurrentIndices reg calls)
        (initResults reg calls)).set i0 cancelledResult)[j]? = some zeroResult
    rw [List.getElem?_set_ne hjne,
      applyConcurrent_getElem_not_mem reg calls proceed _ _ hjcon,
      initResults_getElem reg calls hcall, htool]

/-- Batch of two sequential calls used by the C3 counterexample and witness. -/
def demoBatchC3 : List ToolCall :=
  [⟨"1", "function", ⟨"seqtool", ""⟩⟩, ⟨"2", "function", ⟨"seqtool", ""⟩⟩]

/-- Counterexample to C3 as stated: with the context cancelled before the
sequential group starts, the SECOND remaining sequential call does not carry
`error = "context cancelled"` — it keeps the zero-value result, whose error is
the empty string. -/
theorem claim_C3_counterexample :
    (ExecuteTools demoRegistry demoBatchC3 (fun _ => true) 0)[1]? =
      some zeroResult ∧ zeroResult.error ≠ "context cancelled" := by
  constructor
  · rfl
  · decide

/-- Witness instantiating the amended C3 on the concrete two-call sequential
batch. -/
theorem claim_C3_witness :
    (ExecuteTools demoRegistry demoBatchC3 (fun _ => true) 0)[0]? =
      some cancelledResult ∧
    (ExecuteTools demoRegistry demoBatchC3 (fun _ => true) 0)[1]? =
      some zeroResult := by
  obtain ⟨h1, h2⟩ :=
    claim_C3_sequential_cancellation demoRegistry demoBatchC3 (fun _ => true)
      0 [1] rfl
  exact ⟨h1, h2 1 (List.mem_singleton.mpr rfl)⟩


/-! ## Edit tool (src/internal/tools/file_tools.go, `EditTool`, `SearchReplace`)

Go strings are modelled as `List Char`; `strings.Contains`, `strings.Replace`
with limit 1, and `strings.ReplaceAll` are embedded below with Go semantics. -/

theorem isPrefixOf_length_le : ∀ (p s : List Char), p.isPrefixOf s = true → p.length ≤ s.length
  | [], _, _ => Nat.zero_le _
  | a :: as, [], h => by simp [List.isPrefixOf] at h
  | a :: as, b :: bs, h => by
      simp only [List.isPrefixOf, Bool.and_eq_true, beq_iff_eq] at h
      exact Nat.succ_le_succ (isPrefixOf_length_le as bs h.2)

/-- Model of `strings.Contains(s, pat)`: some suffix of `s` starts with `pat`. -/
def containsSub : List Char → List Char → Bool
  | [], pat => pat.isPrefixOf []
  | s@(_ :: rest), pat => pat.isPrefixOf s || containsSub rest pat

/-- Model of `strings.Replace(s, pat, new, 1)`: replace the leftmost occurrence
of `pat` (an empty `pat` inserts `new` at the start, as in Go). -/
def replaceFirstL : List Char → List Char → List Char → List Char
  | [], pat, new => if pat.isEmpty then new else []
  | c :: rest, pat, new =>
    if pat.isEmpty then new ++ c :: rest
    else if pat.isPrefixOf (c :: rest) then new ++ (c :: rest).drop pat.length
    else c :: replaceFirstL rest pat new

/-- Model of `strings.ReplaceAll(s, pat, new)` (an empty `pat` inserts `new`
around every rune, as in Go; `SearchReplace` never reaches that case). -/
def replaceAllL : List Char → List Char → List Char → List Char
  | [], pat, new => if pat.isEmpty then new else []
  | c :: rest, pat, new =>
    if _hne : pat.isEmpty then new ++ c :: replaceAllL rest pat new
    else if _hp : pat.isPrefixOf (c :: rest) then
      new ++ replaceAllL ((c :: rest).drop pat.length) pat new
    else c :: replaceAllL rest pat new
termination_by s _ _ => s.length
decreasing_by
  · simp only [List.length_cons]
    omega
  · have hle : pat.length ≤ (c :: rest).length := isPrefixOf_length_le _ _ _hp
    have hpos : 0 < pat.length := by
      cases pat with
      | nil => simp at _hne
      | cons p ps => simp
    simp only [List.length_drop, List.length_cons]
    omega
  · simp only [List.length_cons]
    omega

/-- Model of `tools.SearchReplace`: reject identical strings, append on empty
`old_string`, require the substring to occur, then replace all occurrences or
only the first one. -/
def SearchReplace (fileContent oldS newS : List Char) (replaceAll : Bool) :
    Except String (List Char) :=
  if oldS = newS then .error "old_string and new_string cannot be the same"
  else if oldS = [] then .ok (fileContent ++ '\n' :: newS)
  else if containsSub fileContent oldS = false then
    .error "old_string not found in file"
  else if replaceAll then .ok (replaceAllL fileContent oldS newS)
  else .ok (replaceFirstL fileContent oldS newS)

/-- Model of `EditTool.Execute`: parameters are already decoded; reading the
file and writing it back are oracles.  The second component is the content
handed to `WriteFileContent`, or `none` when no write is attempted. -/
def EditToolExecute (filePath : String) (readResult : Except String (List Char))
    (oldS newS : List Char) (replaceAll : Bool) (writeErr : Option String) :
    ToolCallResult × Option (List Char) :=
  if oldS = newS then
    ({ content := "", success := false,
       error := "old_string and new_string are identical" }, none)
  else
    match readResult with
    | .error e =>
        ({ content := "", success := false,
           error := "failed to read file: " ++ e }, none)
    | .ok content =>
        match SearchReplace content oldS newS replaceAll with
        | .error e => ({ content := "", success := false, error := e }, none)
        | .ok newContent =>
            match writeErr with
            | some e =>
                ({ content := "", success := false,
                   error := "failed to write file: " ++ e }, some newContent)
            | none =>
                ({ content := "Successfully replaced in " ++ filePath,
                   success := true, error := "" }, some newContent)

/-- C6: evaluation of the edit tool at the failing input.  The claim (and the
tool description in `EditTool.GetDefinition`, which promises "If this string
matches multiple locations ... the tool will fail") requires `SearchReplace`
with `replace_all=false` to fail when `old_string` occurs more than once; the
code instead replaces the first occurrence and succeeds: on file content
`abab` with `old_string="a"`, `new_string="X"`, it returns `ok "Xbab"`, while
`"a"` still occurs in the remainder `"bab"`.  Parts (1) and (2) of the claim do
hold and are evaluated here as well: identical strings are rejected with no
write attempted, and an empty `old_string` appends a newline and the new
string. -/
theorem claim_C6_edit_uniqueness_not_enforced :
    SearchReplace "abab".data "a".data "X".data false = .ok "Xbab".data ∧
    containsSub "bab".data "a".data = true ∧
    (EditToolExecute "f.txt" (.ok "abab".data) "s".data "s".data false none).2 = none ∧
    SearchReplace "abc".data [] "X".data false = .ok ("abc".data ++ '\n' :: "X".data) :=
  ⟨rfl, rfl, rfl, rfl⟩

/-! ## Web fetch tool (src/unnamed/part_006, `WebFetchTool.Execute`)

The URL has already been parsed (`net/url`); only its scheme matters to the
control flow.  The HTTP round trip is an oracle receiving the client timeout
the code computes; bytes of the response body are `List Nat`. -/

/-- Timeout computation of `WebFetchTool.Execute`: default 30 s, requested
value used when positive, capped at 120 s. -/
def webFetchTimeout (requested : ℤ) : ℤ :=
  let t := if requested > 0 then requested else 30
  if t > 120 then 120 else t

/-- Byte-level model of `utils.SafeString`: drop control characters below 32
except newline, carriage return and tab. -/
def goSafeBytes (bs : List Nat) : List Nat :=
  bs.filter (fun b =>
    !(decide (b < 32) && !(decide (b = 10)) && !(decide (b = 13)) && !(decide (b = 9))))

/-- The truncation marker appended by `WebFetchTool.Execute`, as bytes. -/
def truncationMarker : List Nat :=
  "\n... (content truncated)".data.map Char.toNat

/-- Outcome of the HTTP round trip `client.Do(req)` followed by reading the
body. -/
inductive FetchOutcome where
  | failure (msg : String)
  | response (status : ℤ) (body : List Nat)

/-- Reply of the web-fetch tool; `content` is the processed body (the
human-readable envelope around it is omitted). -/
structure WebFetchReply where
  success : Bool
  content : List Nat
  error : String
deriving DecidableEq

/-- Model of `WebFetchTool.Execute` after argument decoding: scheme whitelist,
timeout computation, body truncation at 50 000 bytes, `SafeString` cleaning,
and `success := 200 <= status && status < 300`. -/
def webFetchExecute (scheme : String) (requestedTimeout : ℤ)
    (doRequest : ℤ → FetchOutcome) : WebFetchReply :=
  if scheme ≠ "http" ∧ scheme ≠ "https" then
    { success := false, content := [],
      error := "only HTTP and HTTPS URLs are supported" }
  else
    match doRequest (webFetchTimeout requestedTimeout) with
    | .failure msg =>
        { success := false, content := [], error := "failed to fetch URL: " ++ msg }
    | .response status body =>
        let content := if body.length > 50000 then body.take 50000 ++ truncationMarker
                       else body
        { success := decide (200 ≤ status) && decide (status < 300),
          content := goSafeBytes content, error := "" }

/-- C8 (amended): the web-fetch tool rejects any scheme other than http or
https with a failed result; it issues the request with a 30-second timeout when
the requested one is not positive and with the requested timeout capped at 120
seconds otherwise; on a completed response it truncates bodies longer than
50 000 bytes to the first 50 000 bytes plus the truncation marker (then strips
control characters); and it reports success exactly when the status code lies
in [200, 300) — not for every status below 300. -/
theorem claim_C8_webfetch_behaviour (scheme : String) (t : ℤ)
    (doRequest : ℤ → FetchOutcome) :
    (scheme ≠ "http" → scheme ≠ "https" →
      webFetchExecute scheme t doRequest =
        { success := false, content := [],
          error := "only HTTP and HTTPS URLs are supported" }) ∧
    (t ≤ 0 → webFetchTimeout t = 30) ∧
    (0 < t → webFetchTimeout t = min t 120) ∧
    (∀ (status : ℤ) (body : List Nat), (scheme = "http" ∨ scheme = "https") →
      doRequest (webFetchTimeout t) = .response status body →
      webFetchExecute scheme t doRequest =
        { success := decide (200 ≤ status) && decide (status < 300),
          content := goSafeBytes (if body.length > 50000 then
              body.take 50000 ++ truncationMarker else body),
          error := "" }) := by
  refine ⟨?_, ?_, ?_, ?_⟩
  · intro h1 h2
    unfold webFetchExecute
    rw [if_pos ⟨h1, h2⟩]
  · intro ht
    simp only [webFetchTimeout]
    rw [if_neg (show ¬ t > 0 from by omega)]
    norm_num
  · intro ht
    simp only [webFetchTimeout]
    rw [if_pos (show t > 0 from ht)]
    rcases le_or_lt t 120 with h | h
    · rw [if_neg (show ¬ t > 120 from by omega), min_eq_left h]
    · rw [if_pos (show t > 120 from h), min_eq_right (show (120:ℤ) ≤ t from by omega)]
  · intro status body hscheme hreq
    unfold webFetchExecute
    have hnot : ¬(scheme ≠ "http" ∧ scheme ≠ "https") := by
      rcases hscheme with h | h
      · exact fun hc => hc.1 h
      · exact fun hc => hc.2 h
    rw [if_neg hnot, hreq]

/-- Witness instantiating C8: a rejected ftp URL, the default and the capped
timeout, and a completed 200 response with a short body. -/
theorem claim_C8_witness :
    webFetchExecute "ftp" 0 (fun _ => .response 200 [65]) =
      { success := false, content := [],
        error := "only HTTP and HTTPS URLs are supported" } ∧
    webFetchTimeout 0 = 30 ∧
    webFetchTimeout 500 = min 500 120 ∧
    webFetchExecute "http" 0 (fun _ => .response 200 [65]) =
      { success := decide ((200:ℤ) ≤ 200) && decide ((200:ℤ) < 300),
        content := goSafeBytes (if ([65] : List Nat).length > 50000 then
            ([65] : List Nat).take 50000 ++ truncationMarker else [65]),
        error := "" } := by
  obtain ⟨h1, h2, _, _⟩ := claim_C8_webfetch_behaviour "ftp" 0 (fun _ => .response 200 [65])
  obtain ⟨_, _, h3, h4⟩ := claim_C8_webfetch_behaviour "http" 500 (fun _ => .response 200 [65])
  obtain ⟨_, _, _, h5⟩ := claim_C8_webfetch_behaviour "http" 0 (fun _ => .response 200 [65])
  exact ⟨h1 (by decide) (by decide), h2 (by omega), h3 (by omega),
    h5 200 [65] (Or.inl rfl) rfl⟩

/-- Counterexample to C8 as stated: a completed response with status 100
(below 300) yields `success = false`, because the code requires
`status >= 200` as well. -/
theorem claim_C8_counterexample :
    (webFetchExecute "http" 0 (fun _ => .response 100 [])).success = false ∧
    (100 : ℤ) < 300 :=
  ⟨rfl, by decide⟩



/-! ## Context manager (src/internal/context/context_manager.go)

A session is modelled by the fields `compressSessionHistory`, `AddMessage` and
`limitSessionMessages` touch.  The prompt manager and the compression LLM are
oracles (`renderPrompt`, `chat`); the storage layer is the oracle `save`.  Both
functions are phrased Go-style as state transformers returning
`(error, mutated session)`: every `return err` in the source happens before any
field of the session is assigned, which the model mirrors by pairing the error
with the unchanged session. -/

/-- Model of `types.SessionContext` (fields the compression path touches). -/
structure Session where
  messages : List Message
  compressedHistory : String
  totalTokens : ℤ
deriving Repr

/-- The `historyText` accumulation of `compressSessionHistory`: every message
but the last, rendered `role: content\n`, concatenated in order. -/
def historyText (msgs : List Message) : String :=
  (msgs.take (msgs.length - 1)).foldl
    (fun acc m => acc ++ m.role ++ ": " ++ m.content ++ "\n") ""

/-- Model of `ContextManager.compressSessionHistory`.  `renderPrompt` is
`promptManager.GetPromptWithData("compression", ...)` applied to the history
text and the token limit `contextWindow / 4`; `chat` is the compression LLM
call returning the summary. -/
def compressSessionHistory (historyLimit : ℕ) (contextWindow : ℤ)
    (renderPrompt : String → ℤ → Except String String)
    (chat : String → Except String String) (s : Session) :
    Except String Unit × Session :=
  if s.messages.length ≤ 2 then (.ok (), s)
  else
    match renderPrompt (historyText s.messages) (contextWindow / 4) with
    | .error e => (.error ("failed to get compression prompt: " ++ e), s)
    | .ok prompt =>
      match chat prompt with
      | .error e => (.error ("failed to compress history: " ++ e), s)
      | .ok summary =>
        let ch := if s.compressedHistory ≠ "" then
                    s.compressedHistory ++ "\n\n" ++ summary
                  else summary
        let msgs := if s.messages.length > historyLimit then
                      s.messages.drop (s.messages.length - historyLimit)
                    else s.messages
        let tokens := (msgs.map (fun m => CountTokens m.content)).foldl
                        (fun a t => a + t) (CountTokens ch)
        (.ok (), { messages := msgs, compressedHistory := ch, totalTokens := tokens })

/-- Model of `ContextManager.needsCompression`:
`threshold = int(float64(contextWindow) * compressionThreshold)`, no
compression for a non-positive threshold. -/
def needsCompression (contextWindow : ℤ) (compressionThreshold : ℚ)
    (s : Session) : Bool :=
  let threshold := goIntTrunc ((contextWindow : ℚ) * compressionThreshold)
  if threshold ≤ 0 then false else decide (s.totalTokens > threshold)

/-- Model of `ContextManager.limitSessionMessages`: hard cap at
`2 * HistoryLimit`, keeping the most recent `HistoryLimit` messages and
recomputing the token count. -/
def limitSessionMessages (historyLimit : ℕ) (s : Session) : Session :=
  if s.messages.length > historyLimit * 2 then
    let msgs := s.messages.drop (s.messages.length - historyLimit)
    { messages := msgs,
      compressedHistory := s.compressedHistory,
      totalTokens := (msgs.map (fun m => CountTokens m.content)).foldl
                       (fun a t => a + t) (CountTokens s.compressedHistory) }
  else s

/-- The session `getOrCreateSession` builds for an unknown id. -/
def emptySession : Session :=
  { messages := [], compressedHistory := "", totalTokens := 0 }

/-- Model of `ContextManager.AddMessage` on one session: append the message,
add its token estimate, compress when over the threshold (an error here is
only logged), enforce the hard cap, then persist; the saved session and
`save`'s verdict are returned. -/
def AddMessage (historyLimit : ℕ) (contextWindow : ℤ)
    (compressionThreshold : ℚ)
    (renderPrompt : String → ℤ → Except String String)
    (chat : String → Except String String)
    (save : Session → Except String Unit)
    (existing : Option Session) (message : Message) :
    Except String Unit × Session :=
  let s0 := existing.getD emptySession
  let s1 : Session :=
    { messages := s0.messages ++ [message],
      compressedHistory := s0.compressedHistory,
      totalTokens := s0.totalTokens + CountTokens message.content }
  let s2 := if needsCompression contextWindow compressionThreshold s1 then
              (compressSessionHistory historyLimit contextWindow renderPrompt chat s1).2
            else s1
  let s3 := limitSessionMessages historyLimit s2
  (save s3, s3)

theorem foldl_add_init : ∀ (l : List ℤ) (a : ℤ), l.foldl (fun a t => a + t) a = a + l.sum
  | [], a => by simp
  | x :: xs, a => by
      rw [List.foldl_cons, List.sum_cons, foldl_add_init xs (a + x)]
      ring

theorem getLast?_drop_of_lt : ∀ (l : List Message) (k : Nat), k < l.length →
    (l.drop k).getLast? = l.getLast?
  | _, 0, _ => rfl
  | [], k + 1, h => by simp at h
  | x :: xs, k + 1, h => by
      have hk : k < xs.length := Nat.lt_of_succ_lt_succ h
      cases xs with
      | nil => simp at hk
      | cons y ys =>
          rw [List.drop_succ_cons, getLast?_drop_of_lt (y :: ys) k hk,
            List.getLast?_cons_cons]

/-- C4 (amended): when compaction actually runs (more than two messages, the
prompt renders and the compression LLM answers), the session afterwards keeps
exactly the most recent `min(#messages, HistoryLimit)` messages (so at most
`HistoryLimit`), the summary is appended to any earlier compressed history
separated by a blank line, the compressed history is non-empty PROVIDED the
summary or the earlier compressed history is non-empty, and the token count is
recomputed as `tokens(compressed_history) + Σ tokens(retained messages)`. -/
theorem claim_C4_compaction_postcondition (historyLimit : ℕ) (contextWindow : ℤ)
    (renderPrompt : String → ℤ → Except String String)
    (chat : String → Except String String) (s : Session)
    (hrun : 2 < s.messages.length)
    {p summary : String}
    (hp : renderPrompt (historyText s.messages) (contextWindow / 4) = .ok p)
    (hc : chat p = .ok summary) :
    (compressSessionHistory historyLimit contextWindow renderPrompt chat s).1 = .ok () ∧
    (compressSessionHistory historyLimit contextWindow renderPrompt chat s).2.messages =
      s.messages.drop (s.messages.length - historyLimit) ∧
    (compressSessionHistory historyLimit contextWindow renderPrompt chat s).2.messages.length ≤
      historyLimit ∧
    (compressSessionHistory historyLimit contextWindow renderPrompt chat s).2.compressedHistory =
      (if s.compressedHistory ≠ "" then s.compressedHistory ++ "\n\n" ++ summary
       else summary) ∧
    ((s.compressedHistory ≠ "" ∨ summary ≠ "") →
      (compressSessionHistory historyLimit contextWindow renderPrompt chat s).2.compressedHistory ≠ "") ∧
    (compressSessionHistory historyLimit contextWindow renderPrompt chat s).2.totalTokens =
      CountTokens
        (compressSessionHistory historyLimit contextWindow renderPrompt chat s).2.compressedHistory +
      ((compressSessionHistory historyLimit contextWindow renderPrompt chat s).2.messages.map
        (fun m => CountTokens m.content)).sum := by
  have hne : ¬ s.messages.length ≤ 2 := by omega
  simp only [compressSessionHistory, if_neg hne, hp, hc]
  constructor
  · trivial
  constructor
  · by_cases hgt : s.messages.length > historyLimit
    · rw [if_pos hgt]
    · rw [if_neg hgt]
      have : s.messages.length - historyLimit = 0 := by omega
      rw [this, List.drop_zero]
  constructor
  · by_cases hgt : s.messages.length > historyLimit
    · rw [if_pos hgt, List.length_drop]
      omega
    · rw [if_neg hgt]
      omega
  constructor
  · trivial
  constructor
  · intro hnz
    by_cases hch : s.compressedHistory ≠ ""
    · rw [if_pos hch]
      intro hcontra
      have hlen := congrArg String.length hcontra
      rw [String.length_append, String.length_append] at hlen
      have h2 : String.length "\n\n" = 2 := rfl
      have h0 : String.length "" = 0 := rfl
      omega
    · rw [if_neg hch]
      rcases hnz with h | h
      · exact absurd h hch
      · exact h
  · by_cases hgt : s.messages.length > historyLimit
    · rw [if_pos hgt]
      exact foldl_add_init _ _
    · rw [if_neg hgt]
      exact foldl_add_init _ _


/-- Demonstration prompt renderer (always succeeds). -/
def demoRender : String → ℤ → Except String String := fun _ _ => .ok "p"

/-- Demonstration compression LLM returning a non-empty summary. -/
def demoChat : String → Except String String := fun _ => .ok "S"

/-- Demonstration compression LLM returning an empty summary. -/
def demoChatEmpty : String → Except String String := fun _ => .ok ""

/-- Demonstration prompt renderer that fails. -/
def demoRenderFail : String → ℤ → Except String String := fun _ _ => .error "boom"

/-- Demonstration compression LLM that fails. -/
def demoChatFail : String → Except String String := fun _ => .error "down"

/-- Three-message session used to instantiate the compaction theorems. -/
def demoSessionC4 : Session :=
  { messages := [⟨"user", "a"⟩, ⟨"assistant", "b"⟩, ⟨"user", "c"⟩],
    compressedHistory := "", totalTokens := 9 }

/-- Witness instantiating the amended C4 on a concrete three-message session
with `HistoryLimit = 2` and a non-empty summary. -/
theorem claim_C4_witness :
    2 < demoSessionC4.messages.length ∧
    (compressSessionHistory 2 1000 demoRender demoChat demoSessionC4).2.messages =
      demoSessionC4.messages.drop 1 ∧
    (compressSessionHistory 2 1000 demoRender demoChat demoSessionC4).2.messages.length ≤ 2 ∧
    (compressSessionHistory 2 1000 demoRender demoChat demoSessionC4).2.compressedHistory ≠ "" ∧
    (compressSessionHistory 2 1000 demoRender demoChat demoSessionC4).2.totalTokens =
      CountTokens
        (compressSessionHistory 2 1000 demoRender demoChat demoSessionC4).2.compressedHistory +
      ((compressSessionHistory 2 1000 demoRender demoChat demoSessionC4).2.messages.map
        (fun m => CountTokens m.content)).sum := by
  obtain ⟨_, h2, h3, _, h5, h6⟩ :=
    claim_C4_compaction_postcondition 2 1000 demoRender demoChat demoSessionC4
      (by decide) rfl rfl
  exact ⟨by decide, h2, h3, h5 (Or.inr (by decide)), h6⟩

/-- Counterexample to C4 as stated: when the compression LLM returns an empty
summary and there was no earlier compressed history, compaction completes
normally but `compressed_history` stays EMPTY. -/
theorem claim_C4_counterexample :
    2 < demoSessionC4.messages.length ∧
    (compressSessionHistory 2 1000 demoRender demoChatEmpty demoSessionC4).1 = .ok () ∧
    (compressSessionHistory 2 1000 demoRender demoChatEmpty demoSessionC4).2.compressedHistory = "" :=
  ⟨by decide, rfl, rfl⟩

theorem compress_messages_suffix (historyLimit : ℕ) (contextWindow : ℤ)
    (renderPrompt : String → ℤ → Except String String)
    (chat : String → Except String String) (s : Session)
    (hne : s.messages ≠ []) (hl : 1 ≤ historyLimit) :
    ∃ k, (compressSessionHistory historyLimit contextWindow renderPrompt chat s).2.messages =
      s.messages.drop k ∧ k < s.messages.length := by
  have hlen : 0 < s.messages.length := List.length_pos.mpr hne
  by_cases hsmall : s.messages.length ≤ 2
  · exact ⟨0, by simp [compressSessionHistory, if_pos hsmall], hlen⟩
  · cases hr : renderPrompt (historyText s.messages) (contextWindow / 4) with
    | error e =>
        exact ⟨0, by simp [compressSessionHistory, if_neg hsmall, hr], hlen⟩
    | ok p =>
        cases hc : chat p with
        | error e =>
            exact ⟨0, by simp [compressSessionHistory, if_neg hsmall, hr, hc], hlen⟩
        | ok summary =>
            by_cases hgt : s.messages.length > historyLimit
            · refine ⟨s.messages.length - historyLimit, ?_, by omega⟩
              simp [compressSessionHistory, if_neg hsmall, hr, hc, if_pos hgt]
            · exact ⟨0, by simp [compressSessionHistory, if_neg hsmall, hr, hc, if_neg hgt], hlen⟩

theorem limit_messages_suffix (historyLimit : ℕ) (s : Session)
    (hne : s.messages ≠ []) (hl : 1 ≤ historyLimit) :
    ∃ k, (limitSessionMessages historyLimit s).messages = s.messages.drop k ∧
      k < s.messages.length := by
  have hlen : 0 < s.messages.length := List.length_pos.mpr hne
  by_cases hgt : s.messages.length > historyLimit * 2
  · refine ⟨s.messages.length - historyLimit, ?_, by omega⟩
    simp [limitSessionMessages, if_pos hgt]
  · exact ⟨0, by simp [limitSessionMessages, if_neg hgt], hlen⟩

/-- C10: compaction is atomic on error, and `AddMessage` absorbs a compaction
failure.  If rendering the compression prompt fails, or the compression LLM
call fails, `compressSessionHistory` returns exactly that wrapped error while
the session (messages, compressed history, token count) is unchanged; and for
every oracle pair — in particular failing ones — `AddMessage` still appends its
message (it is the last message of the saved session whenever
`HistoryLimit ≥ 1`) and returns whatever the storage layer says, so a
compaction error never reaches the caller of `AddMessage`. -/
theorem claim_C10_compaction_error_atomicity (historyLimit : ℕ)
    (contextWindow : ℤ) (compressionThreshold : ℚ)
    (renderPrompt : String → ℤ → Except String String)
    (chat : String → Except String String)
    (save : Session → Except String Unit)
    (existing : Option Session) (message : Message) (s : Session) :
    (∀ e, 2 < s.messages.length →
      renderPrompt (historyText s.messages) (contextWindow / 4) = .error e →
      compressSessionHistory historyLimit contextWindow renderPrompt chat s =
        (.error ("failed to get compression prompt: " ++ e), s)) ∧
    (∀ p e, 2 < s.messages.length →
      renderPrompt (historyText s.messages) (contextWindow / 4) = .ok p →
      chat p = .error e →
      compressSessionHistory historyLimit contextWindow renderPrompt chat s =
        (.error ("failed to compress history: " ++ e), s)) ∧
    ((∀ t, save t = .ok ()) →
      (AddMessage historyLimit contextWindow compressionThreshold renderPrompt
        chat save existing message).1 = .ok ()) ∧
    (1 ≤ historyLimit →
      (AddMessage historyLimit contextWindow compressionThreshold renderPrompt
        chat save existing message).2.messages.getLast? = some message) := by
  refine ⟨?_, ?_, ?_, ?_⟩
  · intro e hlen hr
    have hne : ¬ s.messages.length ≤ 2 := by omega
    simp [compressSessionHistory, if_neg hne, hr]
  · intro p e hlen hr hc
    have hne : ¬ s.messages.length ≤ 2 := by omega
    simp [compressSessionHistory, if_neg hne, hr, hc]
  · intro hsave
    exact hsave _
  · intro hl
    simp only [AddMessage]
    set s1 : Session :=
      { messages := (existing.getD emptySession).messages ++ [message],
        compressedHistory := (existing.getD emptySession).compressedHistory,
        totalTokens := (existing.getD emptySession).totalTokens +
          CountTokens message.content } with hs1
    have hs1ne : s1.messages ≠ [] := by
      rw [hs1]
      simp
    have hs1last : s1.messages.getLast? = some message := by
      rw [hs1]
      exact List.getLast?_concat _
    set s2 := if needsCompression contextWindow compressionThreshold s1 then
        (compressSessionHistory historyLimit contextWindow renderPrompt chat s1).2
      else s1 with hs2
    have hs2last : s2.messages.getLast? = some message := by
      rw [hs2]
      by_cases hcomp : needsCompression contextWindow compressionThreshold s1
      · rw [if_pos hcomp]
        obtain ⟨k, hk, hklt⟩ := compress_messages_suffix historyLimit contextWindow
          renderPrompt chat s1 hs1ne hl
        rw [hk, getLast?_drop_of_lt _ _ hklt]
        exact hs1last
      · rw [if_neg hcomp]
        exact hs1last
    have hs2ne : s2.messages ≠ [] := by
      intro h
      rw [h] at hs2last
      simp at hs2last
    obtain ⟨k, hk, hklt⟩ := limit_messages_suffix historyLimit s2 hs2ne hl
    show (limitSessionMessages historyLimit s2).messages.getLast? = some message
    rw [hk, getLast?_drop_of_lt _ _ hklt]
    exact hs2last

/-- Witness instantiating C10: a failing prompt render and a failing LLM call
both leave the three-message session untouched and surface the wrapped error;
an `AddMessage` whose compaction fails still returns `ok` and ends with the
added message. -/
theorem claim_C10_witness :
    compressSessionHistory 2 1000 demoRenderFail demoChat demoSessionC4 =
      (.error "failed to get compression prompt: boom", demoSessionC4) ∧
    compressSessionHistory 2 1000 demoRender demoChatFail demoSessionC4 =
      (.error "failed to compress history: down", demoSessionC4) ∧
    (AddMessage 2 1000 1 demoRenderFail demoChatFail (fun _ => .ok ())
      (some demoSessionC4) ⟨"user", "d"⟩).1 = .ok () ∧
    (AddMessage 2 1000 1 demoRenderFail demoChatFail (fun _ => .ok ())
      (some demoSessionC4) ⟨"user", "d"⟩).2.messages.getLast? =
      some ⟨"user", "d"⟩ := by
  obtain ⟨h1, _, _, _⟩ :=
    claim_C10_compaction_error_atomicity 2 1000 1 demoRenderFail demoChat
      (fun _ => .ok ()) (some demoSessionC4) ⟨"user", "d"⟩ demoSessionC4
  obtain ⟨_, h2, _, _⟩ :=
    claim_C10_compaction_error_atomicity 2 1000 1 demoRender demoChatFail
      (fun _ => .ok ()) (some demoSessionC4) ⟨"user", "d"⟩ demoSessionC4
  obtain ⟨_, _, h3, h4⟩ :=
    claim_C10_compaction_error_atomicity 2 1000 1 demoRenderFail demoChatFail
      (fun _ => .ok ()) (some demoSessionC4) ⟨"user", "d"⟩ demoSessionC4
  exact ⟨h1 "boom" (by decide) rfl, h2 "p" "down" (by decide) rfl rfl,
    h3 (fun _ => rfl), h4 (by omega)⟩


/-! ## Agent loop (src/unnamed/part_005, `Agent.runAgentLoop` / `Agent.Chat`)

The LLM is the oracle `chat : Nat → Except String LLMResponseA` (the response
to the request built in iteration `loop`); appending the assistant message to
the context is the oracle `addMsg : Nat → Option String` (`some e` is a
storage failure).  `executeToolCalls` always returns `nil` in the source (tool
failures are logged and fed back to the model), so it does not influence the
control flow modelled here. -/

/-- Model of `types.LLMResponse` as consumed by the loop. -/
structure LLMResponseA where
  content : String
  toolCalls : List ToolCall
  usage : Usage

/-- The zero `types.Usage`. -/
def zeroUsage : Usage := ⟨0, 0, 0⟩

/-- The per-iteration usage accumulation of `runAgentLoop`. -/
def addUsage (a b : Usage) : Usage :=
  ⟨a.promptTokens + b.promptTokens, a.completionTokens + b.completionTokens,
    a.totalTokens + b.totalTokens⟩

/-- Model of the body of `Agent.runAgentLoop`: `fuel` counts the remaining
iterations (`MaxLoops - loop`); `fr` carries `finalResponse`. -/
def runAgentLoopGo (chat : Nat → Except String LLMResponseA)
    (addMsg : Nat → Option String) :
    Nat → Nat → String → Usage → Except String (String × Usage)
  | _, 0, fr, totalUsage => .ok (fr, totalUsage)
  | loop, fuel + 1, _, totalUsage =>
    match chat loop with
    | .error e => .error ("LLM call failed: " ++ e)
    | .ok resp =>
      match addMsg loop with
      | some e => .error ("failed to add assistant message: " ++ e)
      | none =>
        if resp.toolCalls.isEmpty then .ok (resp.content, addUsage totalUsage resp.usage)
        else runAgentLoopGo chat addMsg (loop + 1) fuel resp.content
               (addUsage totalUsage resp.usage)

/-- Model of `Agent.runAgentLoop`. -/
def runAgentLoop (maxLoops : Nat) (chat : Nat → Except String LLMResponseA)
    (addMsg : Nat → Option String) : Except String (String × Usage) :=
  runAgentLoopGo chat addMsg 0 maxLoops "" zeroUsage

/-- Model of `types.ChatResponse` (session id and metadata omitted). -/
structure ChatResponse where
  response : String
  finished : Bool
  usage : Usage

/-- Model of `Agent.Chat`: add the user message (oracle `addUserErr`), run the
loop, wrap the outcome with `Finished: true`. -/
def AgentChat (maxLoops : Nat) (addUserErr : Option String)
    (chat : Nat → Except String LLMResponseA) (addMsg : Nat → Option String) :
    Except String ChatResponse :=
  match addUserErr with
  | some e => .error ("failed to add user message: " ++ e)
  | none =>
    match runAgentLoop maxLoops chat addMsg with
    | .error e => .error ("agent loop failed: " ++ e)
    | .ok (resp, usage) => .ok { response := resp, finished := true, usage := usage }

theorem runAgentLoopGo_all_tools (chat : Nat → Except String LLMResponseA)
    (addMsg : Nat → Option String) (resps : Nat → LLMResponseA) :
    ∀ (fuel loop : Nat) (fr : String) (u : Usage), 1 ≤ fuel →
    (∀ i, loop ≤ i → i < loop + fuel →
      chat i = .ok (resps i) ∧ (resps i).toolCalls ≠ [] ∧ addMsg i = none) →
    ∃ u2, runAgentLoopGo chat addMsg loop fuel fr u =
      .ok ((resps (loop + fuel - 1)).content, u2) := by
  intro fuel
  induction fuel with
  | zero => exact fun loop fr u h1 _ => absurd h1 (by omega)
  | succ f ih =>
      intro loop fr u _ hall
      obtain ⟨hc, htc, hadd⟩ := hall loop (le_refl _) (by omega)
      have hte : (resps loop).toolCalls.isEmpty = false := by
        cases h : (resps loop).toolCalls with
        | nil => exact absurd h htc
        | cons a as => rfl
      cases f with
      | zero =>
          refine ⟨addUsage u (resps loop).usage, ?_⟩
          simp only [runAgentLoopGo, hc, hadd, hte, Bool.false_eq_true, if_false]
          rw [show loop + 1 - 1 = loop from by omega]
      | succ f2 =>
          obtain ⟨u2, hu2⟩ := ih (loop + 1) (resps loop).content
            (addUsage u (resps loop).usage) (by omega)
            (fun i hi1 hi2 => hall i (by omega) (by omega))
          refine ⟨u2, ?_⟩
          simp only [runAgentLoopGo, hc, hadd, hte, Bool.false_eq_true, if_false]
          rw [show loop + (f2 + 1 + 1) - 1 = loop + 1 + (f2 + 1) - 1 from by omega]
          exact hu2

/-- C7: when the agent loop runs all `MaxLoops` iterations — on every
iteration the model answers, the assistant message is stored, and the
tool-call list is non-empty — `Chat` returns normally (no synthesized
failure): an `ok` response whose content is the last assistant message's
content, with `finished = true`. -/
theorem claim_C7_loop_cap_returns_last_content (maxLoops : Nat)
    (chat : Nat → Except String LLMResponseA) (addMsg : Nat → Option String)
    (resps : Nat → LLMResponseA)
    (hchat : ∀ i, i < maxLoops → chat i = .ok (resps i))
    (htc : ∀ i, i < maxLoops → (resps i).toolCalls ≠ [])
    (hadd : ∀ i, i < maxLoops → addMsg i = none)
    (h1 : 1 ≤ maxLoops) :
    ∃ u, AgentChat maxLoops none chat addMsg =
      .ok { response := (resps (maxLoops - 1)).content, finished := true, usage := u } := by
  obtain ⟨u2, hu⟩ := runAgentLoopGo_all_tools chat addMsg resps maxLoops 0 "" zeroUsage h1
    (fun i hi1 hi2 => ⟨hchat i (by omega), htc i (by omega), hadd i (by omega)⟩)
  rw [show 0 + maxLoops - 1 = maxLoops - 1 from by omega] at hu
  exact ⟨u2, by simp only [AgentChat, runAgentLoop, hu]⟩

/-- Responses of the demonstration model driving the C7 witness: every
iteration requests a tool call. -/
def demoResps : Nat → LLMResponseA := fun i =>
  { content := if i = 0 then "first attempt" else "last attempt",
    toolCalls := [⟨"t1", "function", ⟨"echo", ""⟩⟩],
    usage := ⟨1, 1, 2⟩ }

/-- Witness instantiating C7 with `MaxLoops = 2` and a model that asks for a
tool call on both iterations: `Chat` returns `ok` with the second (last)
assistant content and `finished = true`. -/
theorem claim_C7_witness :
    ∃ u, AgentChat 2 none (fun i => .ok (demoResps i)) (fun _ => none) =
      .ok { response := (demoResps 1).content, finished := true, usage := u } :=
  claim_C7_loop_cap_returns_last_content 2 (fun i => .ok (demoResps i))
    (fun _ => none) demoResps (fun _ _ => rfl)
    (fun i _ => List.cons_ne_nil _ _) (fun _ _ => rfl) (by omega)


/-! ## Snapshot safety of `GetMessages` (src/internal/context/context_manager.go)

`GetMessages` returns `session.Messages` — the live Go slice header, not a
copy.  Whether sequences already handed out can later be mutated is a question
about Go slice semantics, so slices are modelled explicitly: a heap of backing
arrays (`data`), their capacities (`caps`) and an allocation counter (`fresh`),
with a slice a triple (array id, offset, length).  `append` either writes in
place at the slice's end (when capacity remains) or copies into a fresh array;
compaction and the `limitSessionMessages` hard cap only reslice to a suffix
(`s.Messages = s.Messages[len-keep:]`), never writing elements.  The session's
slice is the state's second component; `GetMessages` hands out that header. -/

/-- A Go slice header: backing array id, offset, length. -/
structure SliceView where
  arr : Nat
  off : Nat
  len : Nat

/-- The heap of backing arrays.  `data a i` is slot `i` of array `a` (junk
beyond the initialised region), `caps a` its capacity, `fresh` the next unused
array id. -/
structure Heap where
  data : Nat → Nat → Message
  caps : Nat → Nat
  fresh : Nat

/-- The sequence an outstanding slice header denotes: its `len` elements read
from the backing array. -/
def readView (h : Heap) (v : SliceView) : List Message :=
  (List.range v.len).map (fun i => h.data v.arr (v.off + i))

/-- Go `append(s, m)`: write at the end in place when capacity remains,
otherwise copy everything into a freshly allocated larger array (growth factor
immaterial to the claims). -/
def goAppend (h : Heap) (v : SliceView) (m : Message) : Heap × SliceView :=
  if v.off + v.len < h.caps v.arr then
    ({ h with data := fun a i =>
         if a = v.arr ∧ i = v.off + v.len then m else h.data a i },
     { v with len := v.len + 1 })
  else
    ({ data := fun a i =>
         if a = h.fresh then (if i < v.len then h.data v.arr (v.off + i) else m)
         else h.data a i,
       caps := fun a => if a = h.fresh then 2 * (v.len + 1) else h.caps a,
       fresh := h.fresh + 1 },
     { arr := h.fresh, off := 0, len := v.len + 1 })

/-- Go `s[len-keep:]`: reslice to the last `keep` elements. -/
def goTruncToLast (v : SliceView) (keep : Nat) : SliceView :=
  { arr := v.arr, off := v.off + (v.len - keep), len := keep }

/-- One manager operation on the session's slice: `AddMessage`'s append,
`compressSessionHistory`'s truncation (a no-op for at most two messages or on a
compression error), and `limitSessionMessages`'s hard cap. -/
inductive SessionOp where
  | add (m : Message)
  | compact (keep : Nat)
  | limit (keep : Nat)

/-- Apply one operation to the session state. -/
def applyOp (st : Heap × SliceView) : SessionOp → Heap × SliceView
  | .add m => goAppend st.1 st.2 m
  | .compact keep =>
      if st.2.len ≤ 2 then st
      else if st.2.len > keep then (st.1, goTruncToLast st.2 keep) else st
  | .limit keep =>
      if st.2.len > keep * 2 then (st.1, goTruncToLast st.2 keep) else st

/-- Apply a sequence of operations. -/
def applyOps (st : Heap × SliceView) : List SessionOp → Heap × SliceView
  | [] => st
  | op :: ops => applyOps (applyOp st op) ops

/-- Model of `ContextManager.GetMessages`: the live slice header is returned
as-is (`return session.Messages`), not a copy. -/
def GetMessages (st : Heap × SliceView) : SliceView := st.2

/-- Invariant tying an outstanding snapshot header `g` to the current state:
its array was allocated, and where it aliases the session's array, its window
ends no later than the session slice's end — all writes land at or beyond that
end. -/
def SnapInv (g : SliceView) (st : Heap × SliceView) : Prop :=
  g.arr < st.1.fresh ∧ st.2.arr < st.1.fresh ∧
  (g.arr = st.2.arr → g.off + g.len ≤ st.2.off + st.2.len)

theorem applyOp_preserves (g : SliceView) (st : Heap × SliceView)
    (op : SessionOp) (hInv : SnapInv g st) :
    SnapInv g (applyOp st op) ∧ readView (applyOp st op).1 g = readView st.1 g := by
  obtain ⟨hg, hv, hend⟩ := hInv
  cases op with
  | add m =>
      show SnapInv g (goAppend st.1 st.2 m) ∧
        readView (goAppend st.1 st.2 m).1 g = readView st.1 g
      unfold goAppend
      by_cases hcap : st.2.off + st.2.len < st.1.caps st.2.arr
      · rw [if_pos hcap]
        refine ⟨⟨hg, hv, fun ha => ?_⟩, ?_⟩
        · have := hend ha
          simp only
          omega
        · unfold readView
          refine List.map_congr_left (fun i hi => ?_)
          have hilt : i < g.len := List.mem_range.mp hi
          simp only
          rw [if_neg ?_]
          rintro ⟨ha, hoff⟩
          have := hend ha
          omega
      · rw [if_neg hcap]
        have hgne : g.arr ≠ st.1.fresh := by omega
        refine ⟨⟨by simp only; omega, by simp only; omega, fun ha => ?_⟩, ?_⟩
        · exact absurd ha hgne
        · unfold readView
          refine List.map_congr_left (fun i hi => ?_)
          simp only
          rw [if_neg hgne]
  | compact keep =>
      simp only [applyOp]
      by_cases h2 : st.2.len ≤ 2
      · rw [if_pos h2]
        exact ⟨⟨hg, hv, hend⟩, rfl⟩
      · rw [if_neg h2]
        by_cases hk : st.2.len > keep
        · rw [if_pos hk]
          refine ⟨⟨hg, hv, fun ha => ?_⟩, rfl⟩
          have := hend ha
          unfold goTruncToLast
          simp only
          omega
        · rw [if_neg hk]
          exact ⟨⟨hg, hv, hend⟩, rfl⟩
  | limit keep =>
      simp only [applyOp]
      by_cases hk : st.2.len > keep * 2
      · rw [if_pos hk]
        refine ⟨⟨hg, hv, fun ha => ?_⟩, rfl⟩
        have := hend ha
        unfold goTruncToLast
        simp only
        omega
      · rw [if_neg hk]
        exact ⟨⟨hg, hv, hend⟩, rfl⟩

theorem applyOps_preserves (g : SliceView) :
    ∀ (ops : List SessionOp) (st : Heap × SliceView), SnapInv g st →
      SnapInv g (applyOps st ops) ∧
      readView (applyOps st ops).1 g = readView st.1 g
  | [], st, hInv => ⟨hInv, rfl⟩
  | op :: ops, st, hInv => by
      obtain ⟨hInv1, hread1⟩ := applyOp_preserves g st op hInv
      obtain ⟨hInv2, hread2⟩ := applyOps_preserves g ops (applyOp st op) hInv1
      exact ⟨hInv2, hread2.trans hread1⟩

/-- Model of `ContextManager.GetSessionContext`: `sessionCopy := *session`
followed by `make` + `copy` — the messages are copied into a freshly allocated
array and a header onto that copy is handed out, while the session keeps its
own slice.  The result is the state after the allocation paired with the
snapshot header.  (The other struct fields are copied by value and are not
part of the aliasing question.) -/
def GetSessionContext (st : Heap × SliceView) : (Heap × SliceView) × SliceView :=
  (({ data := fun a i =>
        if a = st.1.fresh then
          (if i < st.2.len then st.1.data st.2.arr (st.2.off + i) else default)
        else st.1.data a i,
      caps := fun a => if a = st.1.fresh then st.2.len else st.1.caps a,
      fresh := st.1.fresh + 1 },
    st.2),
   { arr := st.1.fresh, off := 0, len := st.2.len })

/-- C5: the sequences handed out by `GetMessages` and by `GetSessionContext`
are stable snapshots.  For every well-formed session state and every later
sequence of `AddMessage` appends, compactions and truncations on the same
session: (1) reading the slice header `GetMessages` returned yields exactly
the same message list as at hand-out time, with unchanged length (the header
is live, but appends write only at or beyond the session slice's end and
truncations only reslice); and (2) the header `GetSessionContext` returned —
a deep copy into a fresh array — likewise still reads exactly the hand-out
message list, with unchanged length. -/
theorem claim_C5_snapshot_safety (st0 : Heap × SliceView)
    (ops : List SessionOp) (hwf : st0.2.arr < st0.1.fresh) :
    (readView (applyOps st0 ops).1 (GetMessages st0) =
        readView st0.1 (GetMessages st0) ∧
      (readView (applyOps st0 ops).1 (GetMessages st0)).length =
        (GetMessages st0).len) ∧
    (readView (applyOps (GetSessionContext st0).1 ops).1 (GetSessionContext st0).2 =
        readView st0.1 (GetMessages st0) ∧
      (readView (applyOps (GetSessionContext st0).1 ops).1
          (GetSessionContext st0).2).length =
        (GetMessages st0).len) := by
  constructor
  · have hInv : SnapInv (GetMessages st0) st0 := ⟨hwf, hwf, fun _ => le_refl _⟩
    obtain ⟨_, hread⟩ := applyOps_preserves (GetMessages st0) ops st0 hInv
    refine ⟨hread, ?_⟩
    rw [hread]
    unfold readView
    rw [List.length_map, List.length_range]
  · have hInv : SnapInv (GetSessionContext st0).2 (GetSessionContext st0).1 := by
      refine ⟨?_, ?_, ?_⟩
      · show st0.1.fresh < st0.1.fresh + 1
        omega
      · show st0.2.arr < st0.1.fresh + 1
        omega
      · intro ha
        have h1 : (GetSessionContext st0).2.arr = st0.1.fresh := rfl
        have h2 : (GetSessionContext st0).1.2 = st0.2 := rfl
        rw [h2] at ha
        rw [h1] at ha
        omega
    obtain ⟨_, hread⟩ :=
      applyOps_preserves (GetSessionContext st0).2 ops (GetSessionContext st0).1 hInv
    have hcopy : readView (GetSessionContext st0).1.1 (GetSessionContext st0).2 =
        readView st0.1 (GetMessages st0) := by
      unfold readView
      refine List.map_congr_left (fun i hi => ?_)
      have hilt : i < st0.2.len := List.mem_range.mp hi
      show (if st0.1.fresh = st0.1.fresh then
          (if 0 + i < st0.2.len then st0.1.data st0.2.arr (st0.2.off + (0 + i))
           else default)
        else st0.1.data st0.1.fresh (0 + i)) = st0.1.data st0.2.arr (st0.2.off + i)
      rw [if_pos rfl, if_pos (by omega)]
      rw [show 0 + i = i from by omega]
    refine ⟨hread.trans hcopy, ?_⟩
    rw [hread, hcopy]
    unfold readView
    rw [List.length_map, List.length_range]

/-- Initial one-message state used by the C5 witness. -/
def demoHeap : Heap :=
  { data := fun _ _ => ⟨"user", "hello"⟩, caps := fun _ => 2, fresh := 1 }

/-- The session slice of the C5 witness state. -/
def demoView : SliceView := { arr := 0, off := 0, len := 1 }

/-- Operations run after the snapshot in the C5 witness: two appends (the
second forces a reallocation), a compaction and the hard cap. -/
def demoOps : List SessionOp :=
  [.add ⟨"assistant", "x"⟩, .add ⟨"user", "y"⟩, .compact 1, .limit 1]

/-- Witness instantiating C5: after an in-place append, a reallocating append,
a compaction and a truncation, both the `GetMessages` snapshot and the
`GetSessionContext` copy taken before them read unchanged and keep their
length. -/
theorem claim_C5_witness :
    (readView (applyOps (demoHeap, demoView) demoOps).1
        (GetMessages (demoHeap, demoView)) =
      readView demoHeap (GetMessages (demoHeap, demoView)) ∧
    (readView (applyOps (demoHeap, demoView) demoOps).1
        (GetMessages (demoHeap, demoView))).length =
      (GetMessages (demoHeap, demoView)).len) ∧
    (readView (applyOps (GetSessionContext (demoHeap, demoView)).1 demoOps).1
        (GetSessionContext (demoHeap, demoView)).2 =
      readView demoHeap (GetMessages (demoHeap, demoView)) ∧
    (readView (applyOps (GetSessionContext (demoHeap, demoView)).1 demoOps).1
        (GetSessionContext (demoHeap, demoView)).2).length =
      (GetMessages (demoHeap, demoView)).len) :=
  claim_C5_snapshot_safety (demoHeap, demoView) demoOps (by decide)


/-! ## Streaming tool-call reconstruction (src/internal/llm/openai.go, `ChatStream`)

The stream handler keeps `toolCallsMap : map[int]*types.ToolCall`: on each
fragment it initialises the entry for the fragment's index if absent, appends
the non-empty argument fragment, and overwrites id/type/name when the fragment
carries them.  At EOF it assembles `for i := 0; i < len(toolCallsMap); i++`,
appending the entry at key `i` when present.  The Go map is modelled by a
lookup function plus its (distinct, insertion-ordered) key list, whose length
is `len(toolCallsMap)`. -/

/-- One streamed tool-call fragment (an `openai.ToolCall` inside a delta, with
`*tc.Index` dereferenced). -/
structure ToolCallDelta where
  index : Nat
  id : String
  type : String
  name : String
  arguments : String

/-- The `toolCallsMap` under construction. -/
structure TCMap where
  find : Nat → Option ToolCall
  keys : List Nat

/-- The empty map. -/
def emptyTCMap : TCMap := { find := fun _ => none, keys := [] }

/-- The per-entry update the loop body performs for one fragment: initialise
from the fragment if absent, append a non-empty argument fragment, then
overwrite id, type and name when the fragment carries them. -/
def applyDeltaTC (s : Option ToolCall) (d : ToolCallDelta) : ToolCall :=
  let tc0 : ToolCall := match s with
    | none => { id := d.id, type := d.type, function := { name := d.name, arguments := "" } }
    | some tc => tc
  let tc1 := if d.arguments ≠ "" then
      { tc0 with function := { tc0.function with
          arguments := tc0.function.arguments ++ d.arguments } }
    else tc0
  let tc2 := if d.id ≠ "" then { tc1 with id := d.id } else tc1
  let tc3 := if d.type ≠ "" then { tc2 with type := d.type } else tc2
  if d.name ≠ "" then { tc3 with function := { tc3.function with name := d.name } } else tc3

/-- Processing one fragment against the map. -/
def processDelta (m : TCMap) (d : ToolCallDelta) : TCMap :=
  { find := fun j => if j = d.index then some (applyDeltaTC (m.find d.index) d)
            else m.find j,
    keys := match m.find d.index with
      | none => m.keys ++ [d.index]
      | some _ => m.keys }

/-- Processing the whole stream in arrival order. -/
def processDeltas (m : TCMap) : List ToolCallDelta → TCMap
  | [] => m
  | d :: ds => processDeltas (processDelta m d) ds

/-- The EOF assembly loop `for i := 0; i < len(toolCallsMap); i++`. -/
def finalToolCalls (m : TCMap) : List ToolCall :=
  (List.range m.keys.length).filterMap m.find

/-- The complete reconstruction `ChatStream` performs on the fragment list. -/
def reconstructToolCalls (ds : List ToolCallDelta) : List ToolCall :=
  finalToolCalls (processDeltas emptyTCMap ds)

/-- The evolution of a single map entry under a fragment subsequence. -/
def foldAt (s : Option ToolCall) : List ToolCallDelta → Option ToolCall
  | [] => s
  | d :: ds => foldAt (some (applyDeltaTC s d)) ds

/-- The value a last-writer-wins string field settles on ("" when no fragment
carries it). -/
def lastNonEmpty (fs : List ToolCallDelta) (proj : ToolCallDelta → String) : String :=
  fs.foldl (fun acc d => if proj d = "" then acc else proj d) ""

/-- Concatenation of the argument fragments in arrival order. -/
def concatArgs (fs : List ToolCallDelta) : String :=
  fs.foldl (fun acc d => acc ++ d.arguments) ""

theorem applyDeltaTC_some (tc0 : ToolCall) (d : ToolCallDelta) :
    applyDeltaTC (some tc0) d =
      { id := if d.id = "" then tc0.id else d.id,
        type := if d.type = "" then tc0.type else d.type,
        function := { name := if d.name = "" then tc0.function.name else d.name,
                      arguments := tc0.function.arguments ++ d.arguments } } := by
  simp only [applyDeltaTC]
  by_cases h1 : d.arguments = "" <;> by_cases h2 : d.id = "" <;>
    by_cases h3 : d.type = "" <;> by_cases h4 : d.name = "" <;>
      simp [h1, h2, h3, h4, String.append_empty]

theorem applyDeltaTC_none (d : ToolCallDelta) :
    applyDeltaTC none d = applyDeltaTC (some ⟨d.id, d.type, ⟨d.name, ""⟩⟩) d := rfl

theorem foldAt_some : ∀ (fs : List ToolCallDelta) (tc0 : ToolCall),
    foldAt (some tc0) fs = some
      { id := fs.foldl (fun acc d => if d.id = "" then acc else d.id) tc0.id,
        type := fs.foldl (fun acc d => if d.type = "" then acc else d.type) tc0.type,
        function :=
          { name := fs.foldl (fun acc d => if d.name = "" then acc else d.name)
              tc0.function.name,
            arguments := fs.foldl (fun acc d => acc ++ d.arguments)
              tc0.function.arguments } }
  | [], tc0 => rfl
  | d :: fs, tc0 => by
      show foldAt (some (applyDeltaTC (some tc0) d)) fs = _
      rw [applyDeltaTC_some, foldAt_some fs _]
      rfl

theorem foldAt_ne_nil (fs : List ToolCallDelta) (hne : fs ≠ []) :
    foldAt none fs = some
      { id := lastNonEmpty fs (fun d => d.id),
        type := lastNonEmpty fs (fun d => d.type),
        function := { name := lastNonEmpty fs (fun d => d.name),
                      arguments := concatArgs fs } } := by
  cases fs with
  | nil => exact absurd rfl hne
  | cons d fs =>
      show foldAt (some (applyDeltaTC none d)) fs = _
      rw [applyDeltaTC_none, applyDeltaTC_some, foldAt_some]
      have hid : (if d.id = "" then d.id else d.id) = (if d.id = "" then "" else d.id) := by
        by_cases h : d.id = "" <;> simp [h]
      have hty : (if d.type = "" then d.type else d.type) =
          (if d.type = "" then "" else d.type) := by
        by_cases h : d.type = "" <;> simp [h]
      have hna : (if d.name = "" then d.name else d.name) =
          (if d.name = "" then "" else d.name) := by
        by_cases h : d.name = "" <;> simp [h]
      simp only [lastNonEmpty, concatArgs, List.foldl_cons]
      rw [hid, hty, hna]

theorem foldl_upd_inv (proj : ToolCallDelta → String) (v : String) :
    ∀ (fs : List ToolCallDelta) (acc : String),
      (∀ d ∈ fs, proj d = "" ∨ proj d = v) → acc = v →
      fs.foldl (fun acc d => if proj d = "" then acc else proj d) acc = v
  | [], _, _, hacc => hacc
  | d :: fs, acc, hall, hacc => by
      rw [List.foldl_cons]
      by_cases h : proj d = ""
      · rw [if_pos h]
        exact foldl_upd_inv proj v fs acc
          (fun x hx => hall x (List.mem_cons_of_mem _ hx)) hacc
      · rw [if_neg h]
        exact foldl_upd_inv proj v fs _
          (fun x hx => hall x (List.mem_cons_of_mem _ hx))
          ((hall d (List.mem_cons_self _ _)).resolve_left h)

theorem foldl_upd_witness (proj : ToolCallDelta → String) (v : String) :
    ∀ (fs : List ToolCallDelta) (acc : String),
      (∀ d ∈ fs, proj d = "" ∨ proj d = v) → v ≠ "" →
      (∃ d ∈ fs, proj d = v) →
      fs.foldl (fun acc d => if proj d = "" then acc else proj d) acc = v
  | [], _, _, _, hex => by
      rcases hex with ⟨d, hd, _⟩
      exact absurd hd (List.not_mem_nil d)
  | d :: fs, acc, hall, hv, hex => by
      rw [List.foldl_cons]
      by_cases h : proj d = ""
      · rw [if_pos h]
        rcases hex with ⟨w, hw, hpw⟩
        rcases List.mem_cons.mp hw with hwd | hwfs
        · refine absurd ?_ hv
          rw [← hpw, hwd]
          exact h
        · exact foldl_upd_witness proj v fs acc
            (fun x hx => hall x (List.mem_cons_of_mem _ hx)) hv ⟨w, hwfs, hpw⟩
      · rw [if_neg h]
        exact foldl_upd_inv proj v fs _
          (fun x hx => hall x (List.mem_cons_of_mem _ hx))
          ((hall d (List.mem_cons_self _ _)).resolve_left h)

theorem lastNonEmpty_eq (fs : List ToolCallDelta) (proj : ToolCallDelta → String)
    (v : String) (hall : ∀ d ∈ fs, proj d = "" ∨ proj d = v)
    (hex : v = "" ∨ ∃ d ∈ fs, proj d = v) :
    lastNonEmpty fs proj = v := by
  by_cases hv : v = ""
  · subst hv
    exact foldl_upd_inv proj "" fs "" hall rfl
  · rcases hex with h | h
    · exact absurd h hv
    · exact foldl_upd_witness proj v fs "" hall hv h


theorem processDeltas_find : ∀ (ds : List ToolCallDelta) (m : TCMap) (j : Nat),
    (processDeltas m ds).find j =
      foldAt (m.find j) (ds.filter (fun d => decide (d.index = j)))
  | [], m, j => rfl
  | d :: ds, m, j => by
      show (processDeltas (processDelta m d) ds).find j = _
      rw [processDeltas_find ds (processDelta m d) j]
      by_cases h : d.index = j
      · subst h
        have h1 : (processDelta m d).find d.index =
            some (applyDeltaTC (m.find d.index) d) := by
          simp [processDelta]
        have h2 : (d :: ds).filter (fun x => decide (x.index = d.index)) =
            d :: ds.filter (fun x => decide (x.index = d.index)) := by
          rw [List.filter_cons, if_pos (by simp)]
        rw [h1, h2]
        rfl
      · have h1 : (processDelta m d).find j = m.find j := by
          simp only [processDelta]
          rw [if_neg (fun hj => h hj.symm)]
        have h2 : (d :: ds).filter (fun x => decide (x.index = j)) =
            ds.filter (fun x => decide (x.index = j)) := by
          rw [List.filter_cons, if_neg (by simpa using h)]
        rw [h1, h2]

/-- Well-formedness of the map model: the keys are distinct and are exactly
the indices with an entry. -/
def WFMap (m : TCMap) : Prop :=
  m.keys.Nodup ∧ ∀ j, (m.find j).isSome = true ↔ j ∈ m.keys

theorem emptyTCMap_wf : WFMap emptyTCMap :=
  ⟨List.nodup_nil, fun j => by simp [emptyTCMap]⟩

theorem processDelta_mem_keys (m : TCMap) (d : ToolCallDelta) (hwf : WFMap m)
    (j : Nat) : j ∈ (processDelta m d).keys ↔ j ∈ m.keys ∨ j = d.index := by
  simp only [processDelta]
  cases hfd : m.find d.index with
  | none => simp
  | some tc =>
      have hmem : d.index ∈ m.keys := (hwf.2 d.index).mp (by rw [hfd]; rfl)
      constructor
      · exact Or.inl
      · rintro (h | rfl)
        · exact h
        · exact hmem

theorem processDelta_wf (m : TCMap) (d : ToolCallDelta) (hwf : WFMap m) :
    WFMap (processDelta m d) := by
  constructor
  · show ((processDelta m d).keys).Nodup
    simp only [processDelta]
    cases hfd : m.find d.index with
    | none =>
        have hnmem : d.index ∉ m.keys := by
          intro hmem
          have := (hwf.2 d.index).mpr hmem
          rw [hfd] at this
          simp at this
        refine List.nodup_append.mpr ⟨hwf.1, List.nodup_singleton _, ?_⟩
        intro a ha hb
        rw [List.mem_singleton] at hb
        subst hb
        exact hnmem ha
    | some tc => exact hwf.1
  · intro j
    have hk := processDelta_mem_keys m d hwf j
    by_cases hj : j = d.index
    · subst hj
      have h1 : ((processDelta m d).find d.index).isSome = true := by
        simp [processDelta]
      simp [h1, hk.mpr (Or.inr rfl)]
    · have h1 : (processDelta m d).find j = m.find j := by
        simp only [processDelta]
        rw [if_neg hj]
      rw [h1, hk, hwf.2 j]
      simp [hj]

theorem processDeltas_wf : ∀ (ds : List ToolCallDelta) (m : TCMap),
    WFMap m → WFMap (processDeltas m ds)
  | [], _, hwf => hwf
  | d :: ds, m, hwf => processDeltas_wf ds (processDelta m d) (processDelta_wf m d hwf)

theorem processDeltas_mem_keys : ∀ (ds : List ToolCallDelta) (m : TCMap),
    WFMap m → ∀ j, j ∈ (processDeltas m ds).keys ↔
      j ∈ m.keys ∨ j ∈ ds.map (fun d => d.index)
  | [], m, _, j => by simp [processDeltas]
  | d :: ds, m, hwf, j => by
      show j ∈ (processDeltas (processDelta m d) ds).keys ↔ _
      rw [processDeltas_mem_keys ds (processDelta m d) (processDelta_wf m d hwf) j,
        processDelta_mem_keys m d hwf j]
      simp only [List.map_cons, List.mem_cons]
      tauto

theorem filterMap_range_getElem? :
    ∀ (T : List ToolCall), (List.range T.length).filterMap (fun j => T[j]?) = T := by
  intro T
  induction T using List.reverseRecOn with
  | nil => rfl
  | append_singleton Ts t ih =>
      rw [List.length_append, List.length_singleton, List.range_succ,
        List.filterMap_append]
      have h1 : (List.range Ts.length).filterMap (fun j => (Ts ++ [t])[j]?) = Ts := by
        rw [List.filterMap_congr (fun j hj =>
          List.getElem?_append_left (List.mem_range.mp hj)), ih]
      have h2 : ([Ts.length] : List Nat).filterMap (fun j => (Ts ++ [t])[j]?) = [t] := by
        simp [List.getElem?_concat_length]
      rw [h1, h2]

/-- C2 (amended): for every terminal tool-call list `T` and every
fragmentation of `T` into indexed deltas whose index set is EXACTLY the
contiguous range `0 .. len(T)-1` — per index `i` the argument fragments
concatenate (in arrival order) to `T[i].arguments`, and each of id, type and
function.name is carried only with `T[i]`'s value and is carried by some
fragment whenever `T[i]`'s value is non-empty — the stream reconstruction
yields exactly `T`, regardless of how fragments of different indices
interleave.  (For an index set that is NOT contiguous from 0, assembled calls
are dropped: see the counterexample.) -/
theorem claim_C2_stream_reconstruction (ds : List ToolCallDelta)
    (T : List ToolCall)
    (hidx : ∀ j, j ∈ ds.map (fun d => d.index) ↔ j < T.length)
    (hargs : ∀ (i : Nat) (t : ToolCall), T[i]? = some t →
      concatArgs (ds.filter (fun d => decide (d.index = i))) = t.function.arguments)
    (hid : ∀ (i : Nat) (t : ToolCall), T[i]? = some t →
      (∀ d ∈ ds.filter (fun d => decide (d.index = i)), d.id = "" ∨ d.id = t.id) ∧
      (t.id = "" ∨ ∃ d ∈ ds.filter (fun d => decide (d.index = i)), d.id = t.id))
    (hty : ∀ (i : Nat) (t : ToolCall), T[i]? = some t →
      (∀ d ∈ ds.filter (fun d => decide (d.index = i)), d.type = "" ∨ d.type = t.type) ∧
      (t.type = "" ∨ ∃ d ∈ ds.filter (fun d => decide (d.index = i)), d.type = t.type))
    (hna : ∀ (i : Nat) (t : ToolCall), T[i]? = some t →
      (∀ d ∈ ds.filter (fun d => decide (d.index = i)),
        d.name = "" ∨ d.name = t.function.name) ∧
      (t.function.name = "" ∨
        ∃ d ∈ ds.filter (fun d => decide (d.index = i)), d.name = t.function.name)) :
    reconstructToolCalls ds = T := by
  have hwf := processDeltas_wf ds emptyTCMap emptyTCMap_wf
  have hmem : ∀ j, j ∈ (processDeltas emptyTCMap ds).keys ↔ j < T.length := by
    intro j
    rw [processDeltas_mem_keys ds emptyTCMap emptyTCMap_wf j]
    simp only [emptyTCMap, List.not_mem_nil, false_or]
    exact hidx j
  have hlen : (processDeltas emptyTCMap ds).keys.length = T.length := by
    have h1 : (processDeltas emptyTCMap ds).keys.toFinset = Finset.range T.length := by
      ext j
      rw [List.mem_toFinset, hmem j, Finset.mem_range]
    have h2 := List.toFinset_card_of_nodup hwf.1
    rw [h1, Finset.card_range] at h2
    exact h2.symm
  have hfind : ∀ (j : Nat) (t : ToolCall), T[j]? = some t →
      (processDeltas emptyTCMap ds).find j = some t := by
    intro j t hjt
    have hjlt : j < T.length := (List.getElem?_eq_some_iff.mp hjt).1
    have hfs_ne : ds.filter (fun d => decide (d.index = j)) ≠ [] := by
      have hj : j ∈ ds.map (fun d => d.index) := (hidx j).mpr hjlt
      rcases List.mem_map.mp hj with ⟨d, hd, hdi⟩
      intro hnil
      have hdmem : d ∈ ds.filter (fun x => decide (x.index = j)) :=
        List.mem_filter.mpr ⟨hd, by simp [hdi]⟩
      rw [hnil] at hdmem
      exact List.not_mem_nil d hdmem
    rw [processDeltas_find ds emptyTCMap j]
    show foldAt none _ = some t
    rw [foldAt_ne_nil _ hfs_ne]
    obtain ⟨hid1, hid2⟩ := hid j t hjt
    obtain ⟨hty1, hty2⟩ := hty j t hjt
    obtain ⟨hna1, hna2⟩ := hna j t hjt
    rw [lastNonEmpty_eq _ _ _ hid1 hid2, lastNonEmpty_eq _ _ _ hty1 hty2,
      lastNonEmpty_eq _ _ _ hna1 hna2, hargs j t hjt]
  show finalToolCalls (processDeltas emptyTCMap ds) = T
  unfold finalToolCalls
  rw [hlen]
  rw [List.filterMap_congr (fun j hj => ?_)]
  · exact filterMap_range_getElem? T
  · have hjlt := List.mem_range.mp hj
    have ht : T[j]? = some T[j] := List.getElem?_eq_getElem hjlt
    rw [hfind j T[j] ht, ht]


/-- Fragment stream of the C2 witness: one call at index 0, split into a
metadata-carrying fragment and a bare argument fragment. -/
def demoDeltas : List ToolCallDelta :=
  [⟨0, "t1", "function", "edit", "A"⟩, ⟨0, "", "", "", "B"⟩]

/-- The provider's terminal tool-call list for the C2 witness. -/
def demoTerminal : List ToolCall := [⟨"t1", "function", ⟨"edit", "AB"⟩⟩]

/-- Witness instantiating the amended C2: the two-fragment stream at
contiguous index 0 reassembles exactly the terminal single-call list. -/
theorem claim_C2_witness : reconstructToolCalls demoDeltas = demoTerminal := by
  refine claim_C2_stream_reconstruction demoDeltas demoTerminal ?_ ?_ ?_ ?_ ?_
  · intro j
    simp [demoDeltas, demoTerminal]
  · intro i t h
    cases i with
    | zero =>
        simp only [demoTerminal, List.getElem?_cons_zero, Option.some.injEq] at h
        subst h
        decide
    | succ n =>
        rw [show demoTerminal[n + 1]? = none from by simp [demoTerminal]] at h
        cases h
  · intro i t h
    cases i with
    | zero =>
        simp only [demoTerminal, List.getElem?_cons_zero, Option.some.injEq] at h
        subst h
        decide
    | succ n =>
        rw [show demoTerminal[n + 1]? = none from by simp [demoTerminal]] at h
        cases h
  · intro i t h
    cases i with
    | zero =>
        simp only [demoTerminal, List.getElem?_cons_zero, Option.some.injEq] at h
        subst h
        decide
    | succ n =>
        rw [show demoTerminal[n + 1]? = none from by simp [demoTerminal]] at h
        cases h
  · intro i t h
    cases i with
    | zero =>
        simp only [demoTerminal, List.getElem?_cons_zero, Option.some.injEq] at h
        subst h
        decide
    | succ n =>
        rw [show demoTerminal[n + 1]? = none from by simp [demoTerminal]] at h
        cases h

/-- Counterexample to C2 as stated: a correct single-call stream whose only
fragment carries provider index 1 — the index set is not `0..n-1`.  The entry
is assembled under key 1, but the EOF loop only scans `0 ≤ i < len(map) = 1`,
finds no entry at key 0, and returns the EMPTY list rather than the terminal
single-call list. -/
theorem claim_C2_counterexample :
    reconstructToolCalls [⟨1, "t1", "function", "edit", "x"⟩] = [] ∧
    ([] : List ToolCall) ≠ [⟨"t1", "function", ⟨"edit", "x"⟩⟩] :=
  ⟨rfl, by decide⟩

end NalaCoder
